import Mathlib

/-!
Verification development for the `mem` command-line utility, a tool that
performs read / write / read-modify-write operations on physical memory.

The repository contains two variants of the same program:
  * `src/mem.c`           — the basic variant (widths b/h/w/d, hard-coded
                            `#define PAGESIZE 4096`), modelled in namespace `M`;
  * `src/unnamed/part_000` — the extended variant (adds swapped modes H/W/D
                            and `getpagesize()`), modelled in namespace `X`.

Shared infrastructure (numeric-literal parsing per `strtoull(_, _, 0)`,
operation-token parsing, a byte-addressed memory model, byte swapping and
hex output formatting) lives at the top level; the two variants' parsers,
executors and `main` models live in `M` and `X`.

Physical memory is modelled as a byte-addressed store `Mem : Nat → Nat`.
`mmap` of `/dev/mem` at page-aligned offset `address - pageOffset` followed
by access at `map + pageOffset` touches the bytes at physical `address`, so
the executor acts directly at `address`; the page-arithmetic of the mapping
(`pageOffset`, mapping size, mapping start) is modelled by standalone
functions taken verbatim from the source.
-/

namespace MemTool

/-- Byte-addressed physical memory: each address holds one byte. -/
def Mem : Type := Nat → Nat

/-- Load `k` bytes starting at `a`, least-significant byte first
(little-endian native order, as on the hosts this tool targets). -/
def loadBytes (m : Mem) : Nat → Nat → Nat
  | _, 0 => 0
  | a, k + 1 => m a % 256 + 256 * loadBytes m (a + 1) k

/-- Store the low `k` bytes of `v` starting at address `a` (little-endian),
leaving all other bytes unchanged. -/
def storeBytes (m : Mem) (a k v : Nat) : Mem :=
  fun x => if a ≤ x ∧ x < a + k then v / 256 ^ (x - a) % 256 else m x

/-- The low `k` bytes of `v`, least-significant first. -/
def toBytesLE : Nat → Nat → List Nat
  | 0, _ => []
  | k + 1, v => v % 256 :: toBytesLE k (v / 256)

/-- Recombine a little-endian byte list into a number. -/
def fromBytesLE : List Nat → Nat
  | [] => 0
  | b :: bs => b % 256 + 256 * fromBytesLE bs

/-- Reverse the order of the low `k` bytes of `v`: the model of glibc's
`bswap_16` / `bswap_32` / `bswap_64` (for `k` = 2 / 4 / 8), which operate on
the argument truncated to `8 * k` bits. -/
def bswapBytes (k v : Nat) : Nat := fromBytesLE (toBytesLE k v).reverse

/-- Uppercase hexadecimal digit character, as printed by `printf` `%X`. -/
def hexChar (n : Nat) : Char :=
  if n < 10 then Char.ofNat (48 + n) else Char.ofNat (55 + n)

/-- Hex digits, least-significant first, with a fuel argument bounding the
number of divisions (structural recursion so that concrete instances
compute inside the kernel). -/
def toHexRevGo : Nat → Nat → List Char
  | _, 0 => []
  | 0, _ + 1 => []
  | fuel + 1, n + 1 => hexChar ((n + 1) % 16) :: toHexRevGo fuel ((n + 1) / 16)

/-- Hex digits of `n`, least-significant first (empty for `0`): `n` itself
is always enough fuel. -/
def toHexRev (n : Nat) : List Char := toHexRevGo n n

/-- `printf "%.dX"`-style formatting: uppercase hex, zero-padded on the left
to a minimum of `d` digits. -/
def hexPad (d n : Nat) : String :=
  String.mk (List.replicate (d - (toHexRev n).length) '0' ++ (toHexRev n).reverse)

/-- The operation kinds of the C `enum { READ, WRITE, AND, OR, XOR }`. -/
inductive OpKind where
  | READ
  | WRITE
  | AND
  | OR
  | XOR
deriving DecidableEq

/-- Value of a decimal digit character, if it is one. -/
def decVal? (c : Char) : Option Nat :=
  if '0' ≤ c ∧ c ≤ '9' then some (c.toNat - 48) else none

/-- Value of an octal digit character, if it is one. -/
def octVal? (c : Char) : Option Nat :=
  if '0' ≤ c ∧ c ≤ '7' then some (c.toNat - 48) else none

/-- Value of a hexadecimal digit character (either case), if it is one. -/
def hexVal? (c : Char) : Option Nat :=
  if '0' ≤ c ∧ c ≤ '9' then some (c.toNat - 48)
  else if 'a' ≤ c ∧ c ≤ 'f' then some (c.toNat - 87)
  else if 'A' ≤ c ∧ c ≤ 'F' then some (c.toNat - 55)
  else none

/-- C `isspace` in the default locale. -/
def isSpaceC (c : Char) : Bool :=
  c = ' ' || c = '\t' || c = '\n' || c = '\x0b' || c = '\x0c' || c = '\r'

/-- Skip leading whitespace, as `strtoull` does. -/
def skipWs : List Char → List Char
  | [] => []
  | c :: cs => if isSpaceC c then skipWs cs else c :: cs

/-- Consume a maximal run of digits of the given base, accumulating their
value onto `acc`; returns the value and the unconsumed remainder. -/
def digitsAcc (dig : Char → Option Nat) (base : Nat) : List Char → Nat → Nat × List Char
  | [], acc => (acc, [])
  | c :: cs, acc =>
    match dig c with
    | some d => digitsAcc dig base cs (acc * base + d)
    | none => (acc, c :: cs)

/-- `strtoull`'s result conversion: mathematical digit value clamped to
`ULLONG_MAX` on overflow, otherwise negated in `uint64_t` when the subject
sequence began with a minus sign. -/
def finishULL (neg : Bool) (n : Nat) : Nat :=
  if 2 ^ 64 ≤ n then 2 ^ 64 - 1
  else if neg then (2 ^ 64 - n) % 2 ^ 64
  else n

/-- Model of C `strtoull(s, &p, 0)`: skip whitespace, optional single sign,
base detection (`0x`/`0X` + hex digit → hex, leading `0` → octal, else
decimal), maximal digit run. Returns `none` when no digits are consumed
(the `p == arg` case, with `endptr` left at the start); otherwise returns
the converted value and the unconsumed tail. -/
def strtoullM (cs : List Char) : Option (Nat × List Char) :=
  let s1 := skipWs cs
  let sgn : Bool × List Char :=
    match s1 with
    | c :: r => if c = '-' then (true, r) else if c = '+' then (false, r) else (false, c :: r)
    | [] => (false, [])
  let neg := sgn.1
  match sgn.2 with
  | [] => none
  | c :: rest =>
    if c = '0' then
      match rest with
      | x :: r2 =>
        if (x = 'x' ∨ x = 'X') ∧ (hexVal? (r2.headD '\x00')).isSome then
          let p := digitsAcc hexVal? 16 r2 0
          some (finishULL neg p.1, p.2)
        else
          let p := digitsAcc octVal? 8 (x :: r2) 0
          some (finishULL neg p.1, p.2)
      | [] => some (finishULL neg 0, [])
    else
      match decVal? c with
      | some d =>
        let p := digitsAcc decVal? 10 rest d
        some (finishULL neg p.1, p.2)
      | none => none

/-- A parsed operation token, before the current mode is attached:
`operator`, `address`, and `data` (0 for `READ`, whose data field is never
assigned and stays zero-initialized). -/
structure TokOp where
  operator : OpKind
  address : Nat
  data : Nat
deriving DecidableEq

/-- Value parse after an operator suffix: the code is
`if (!*p) goto choke; data = strtoull(p, &p, 0); if (*p) goto choke;` —
the remainder must be non-empty and entirely consumed by `strtoull`. -/
def valParse (r : List Char) : Option Nat :=
  match r with
  | [] => none
  | _ =>
    match strtoullM r with
    | some (v, []) => some v
    | _ => none

/-- Parse one operation token (both variants share this code verbatim):
`strtoull` the address, dispatch on the suffix character
(`NUL` → READ, `&=` → AND, `^=` → XOR, `|=` → OR, `=` → WRITE),
then parse the value; any other shape chokes (`none`). -/
def tokParse (cs : List Char) : Option TokOp :=
  match strtoullM cs with
  | none => none
  | some (a, rest) =>
    match rest with
    | [] => some ⟨.READ, a, 0⟩
    | '&' :: '=' :: r => (valParse r).map (fun v => ⟨.AND, a, v⟩)
    | '^' :: '=' :: r => (valParse r).map (fun v => ⟨.XOR, a, v⟩)
    | '|' :: '=' :: r => (valParse r).map (fun v => ⟨.OR, a, v⟩)
    | '=' :: r => (valParse r).map (fun v => ⟨.WRITE, a, v⟩)
    | _ => none

/-- `MAXOPS` from both sources. -/
def MAXOPS : Nat := 256

/-! ## Basic variant (`src/mem.c`): namespace `M` -/

namespace M

/-- The per-operation struct of `mem.c`: `{ int operator; int width;
uint64_t address; uint64_t data; }`. -/
structure Op where
  operator : OpKind
  width : Nat
  address : Nat
  data : Nat
deriving DecidableEq

/-- The `switch (*arg)` mode dispatch of `mem.c` on a first character:
`b`→8, `h`→16, `w`→32, `d`→64, anything else falls through. -/
def modeChar (c : Char) : Option Nat :=
  if c = 'b' then some 8
  else if c = 'h' then some 16
  else if c = 'w' then some 32
  else if c = 'd' then some 64
  else none

/-- Whether a token is consumed as a mode token: the C switch inspects only
`*arg`, the first character (the empty string has `*arg == 0`). -/
def mode? (t : String) : Option Nat :=
  match t.data with
  | [] => none
  | c :: _ => modeChar c

/-- The parse loop of `mem.c` `main`, with the current `width` and the
running operation count `c` (the C `ops` variable) made explicit.
Mode tokens update `width` and produce no entry; otherwise the `ops ==
MAXOPS` bound is checked before the token is parsed, and a well-formed
operation token is appended carrying the current width. -/
def parseFrom (w c : Nat) : List String → Except String (List Op)
  | [] => .ok []
  | t :: ts =>
    match mode? t with
    | some w' => parseFrom w' c ts
    | none =>
      if c = MAXOPS then .error "Too many operations\n"
      else
        match tokParse t.data with
        | some o =>
          (parseFrom w (c + 1) ts).map (fun rest => ⟨o.operator, w, o.address, o.data⟩ :: rest)
        | none => .error ("\x27" ++ t ++ "\x27 is invalid\n")

/-- Parse the full argument vector (without the program name): width starts
at 32, count at 0. -/
def parse (args : List String) : Except String (List Op) :=
  parseFrom 32 0 args

/-- `#define PAGESIZE 4096` of `mem.c` (`// XXX get this from sysconf?`). -/
def PAGESIZE : Nat := 4096

/-- `int offset = OP[op].address % PAGESIZE;` — note the hard-coded page
size: the runtime page size is never consulted in this variant. -/
def pageOffset (a : Nat) : Nat := a % PAGESIZE

/-- `int size = ((offset + (OP[op].width/8)) > PAGESIZE) ? 2*PAGESIZE : PAGESIZE;` -/
def mapSize (w a : Nat) : Nat :=
  if PAGESIZE < pageOffset a + w / 8 then 2 * PAGESIZE else PAGESIZE

/-- The `mmap` file offset `(off_t)(OP[op].address - offset)`. -/
def mapStart (a : Nat) : Nat := a - pageOffset a

/-- The value loaded by the READ dispatch: `*(volatile uintN_t *) address`. -/
def readVal (o : Op) (m : Mem) : Nat :=
  match o.width with
  | 8 => loadBytes m o.address 1
  | 16 => loadBytes m o.address 2
  | 32 => loadBytes m o.address 4
  | 64 => loadBytes m o.address 8
  | _ => 0

/-- The stdout lines of the READ dispatch: `printf("0x%.2" PRIX8 "\n", …)`
etc.; an unlisted width prints nothing (unreachable from the parser). -/
def readOut (o : Op) (m : Mem) : List String :=
  match o.width with
  | 8 => ["0x" ++ hexPad 2 (readVal o m)]
  | 16 => ["0x" ++ hexPad 4 (readVal o m)]
  | 32 => ["0x" ++ hexPad 8 (readVal o m)]
  | 64 => ["0x" ++ hexPad 16 (readVal o m)]
  | _ => []

/-- The WRITE dispatch: `*(uintN_t *) address = OP[op].data;` (the C
conversion to `uintN_t` keeps the low `N` bits; `storeBytes` writes exactly
the low `width/8` bytes). An unlisted width stores nothing. -/
def writeMem (o : Op) (m : Mem) : Mem :=
  match o.width with
  | 8 => storeBytes m o.address 1 o.data
  | 16 => storeBytes m o.address 2 o.data
  | 32 => storeBytes m o.address 4 o.data
  | 64 => storeBytes m o.address 8 o.data
  | _ => m

/-- The AND / OR / XOR dispatch: `*(uintN_t *) address op= OP[op].data;`,
a load followed by a store of the combined value. -/
def rmwMem (f : Nat → Nat → Nat) (o : Op) (m : Mem) : Mem :=
  match o.width with
  | 8 => storeBytes m o.address 1 (f (loadBytes m o.address 1) o.data)
  | 16 => storeBytes m o.address 2 (f (loadBytes m o.address 2) o.data)
  | 32 => storeBytes m o.address 4 (f (loadBytes m o.address 4) o.data)
  | 64 => storeBytes m o.address 8 (f (loadBytes m o.address 8) o.data)
  | _ => m

/-- One iteration of the operation loop (the map / access / unmap cycle for
one operation): resulting memory and stdout lines. -/
def step (o : Op) (m : Mem) : Mem × List String :=
  match o.operator with
  | .READ => (m, readOut o m)
  | .WRITE => (writeMem o m, [])
  | .AND => (rmwMem (fun x y => x &&& y) o m, [])
  | .OR => (rmwMem (fun x y => x ||| y) o m, [])
  | .XOR => (rmwMem (fun x y => x ^^^ y) o m, [])

/-- The operation loop: operations execute strictly in list order, each with
its own map/unmap lifecycle; stdout lines accumulate in order. -/
def exec : List Op → Mem → Mem × List String
  | [], m => (m, [])
  | o :: os, m =>
    let r1 := step o m
    let r2 := exec os r1.1
    (r2.1, r1.2 ++ r2.2)

/-- Usage text marker (the full help text of `usage()` is not
claim-relevant; it is printed to stderr and the process exits 1). -/
def usageText : String := "Usage: mem [width] operation [... [width] operation]\n"

/-- Outcome of a run of `main`: exit status, stdout lines, stderr messages,
final physical memory, whether `/dev/mem` was opened, and the operations
actually executed (the memory accesses performed). -/
structure RunResult where
  exit : Nat
  out : List String
  err : List String
  mem : Mem
  opened : Bool
  trace : List Op

/-- Model of `main` on argument vector `args` (i.e. `argv[1..]`) against
physical memory `m`, for a run in which `/dev/mem` opens and every `mmap`
succeeds (failures of those are environment events outside this model):
a parse failure `die`s before `/dev/mem` is opened; zero operations print
the usage text and exit 1; otherwise all operations execute in order. -/
def run (args : List String) (m : Mem) : RunResult :=
  match parse args with
  | .error e => ⟨1, [], [e], m, false, []⟩
  | .ok [] => ⟨1, [], [usageText], m, false, []⟩
  | .ok ops =>
    let r := exec ops m
    ⟨0, r.2, [], r.1, true, ops⟩

end M

/-! ## Extended variant (`src/unnamed/part_000`): namespace `X` -/

namespace X

/-- The per-operation struct of the extended variant: `{ int operator;
int width; int swap; uint64_t address; uint64_t data; }`. -/
structure Op where
  operator : OpKind
  width : Nat
  swap : Bool
  address : Nat
  data : Nat
deriving DecidableEq

/-- The `switch (*arg)` mode dispatch on a first character: lowercase
`b`/`h`/`w`/`d` reset swap, uppercase `H`/`W`/`D` set it. -/
def modeChar (c : Char) : Option (Nat × Bool) :=
  if c = 'b' then some (8, false)
  else if c = 'h' then some (16, false)
  else if c = 'w' then some (32, false)
  else if c = 'd' then some (64, false)
  else if c = 'H' then some (16, true)
  else if c = 'W' then some (32, true)
  else if c = 'D' then some (64, true)
  else none

/-- Whether a token is consumed as a mode token (first character only). -/
def mode? (t : String) : Option (Nat × Bool) :=
  match t.data with
  | [] => none
  | c :: _ => modeChar c

/-- The parse-time byte swap of the value: `if (swap) switch(width) { case
16: data = bswap_16(data); … }`; width 8 (or any unlisted width) leaves the
data untouched. glibc's `bswap_N` truncates its argument to `N` bits, which
`bswapBytes (N/8)` does inherently. -/
def parseData (width : Nat) (swap : Bool) (v : Nat) : Nat :=
  if swap then
    match width with
    | 16 => bswapBytes 2 v
    | 32 => bswapBytes 4 v
    | 64 => bswapBytes 8 v
    | _ => v
  else v

/-- The parse loop of the extended `main`, with current `width`, `swap` and
operation count explicit; as in `M.parseFrom` but the mode table includes
the swapped modes and a stored value is pre-swapped at parse time. -/
def parseFrom (w : Nat) (s : Bool) (c : Nat) : List String → Except String (List Op)
  | [] => .ok []
  | t :: ts =>
    match mode? t with
    | some ws => parseFrom ws.1 ws.2 c ts
    | none =>
      if c = MAXOPS then .error "Too many operations\n"
      else
        match tokParse t.data with
        | some o =>
          (parseFrom w s (c + 1) ts).map
            (fun rest => ⟨o.operator, w, s, o.address, parseData w s o.data⟩ :: rest)
        | none => .error ("\x27" ++ t ++ "\x27 is invalid\n")

/-- Parse the full argument vector: width 32, swap off, count 0. -/
def parse (args : List String) : Except String (List Op) :=
  parseFrom 32 false 0 args

/-- `int offset = OP[op].address % pagesize;` with
`int pagesize = getpagesize();` — the runtime page size `ps`. -/
def pageOffset (ps a : Nat) : Nat := a % ps

/-- `int size = ((offset + (OP[op].width/8)) > pagesize) ? 2*pagesize : pagesize;` -/
def mapSize (ps w a : Nat) : Nat :=
  if ps < pageOffset ps a + w / 8 then 2 * ps else ps

/-- The `mmap` file offset `(off_t)(OP[op].address - offset)`. -/
def mapStart (ps a : Nat) : Nat := a - pageOffset ps a

/-- The value printed by the READ dispatch: the loaded `uintN_t`, byte
swapped after the load when the operation's swap flag is set (width 8 has
no swap branch in the source). -/
def readVal (o : Op) (m : Mem) : Nat :=
  match o.width with
  | 8 => loadBytes m o.address 1
  | 16 =>
    let d := loadBytes m o.address 2
    if o.swap then bswapBytes 2 d else d
  | 32 =>
    let d := loadBytes m o.address 4
    if o.swap then bswapBytes 4 d else d
  | 64 =>
    let d := loadBytes m o.address 8
    if o.swap then bswapBytes 8 d else d
  | _ => 0

/-- The stdout lines of the READ dispatch. -/
def readOut (o : Op) (m : Mem) : List String :=
  match o.width with
  | 8 => ["0x" ++ hexPad 2 (readVal o m)]
  | 16 => ["0x" ++ hexPad 4 (readVal o m)]
  | 32 => ["0x" ++ hexPad 8 (readVal o m)]
  | 64 => ["0x" ++ hexPad 16 (readVal o m)]
  | _ => []

/-- The WRITE dispatch (identical to the basic variant: the stored data was
already swapped at parse time if needed). -/
def writeMem (o : Op) (m : Mem) : Mem :=
  match o.width with
  | 8 => storeBytes m o.address 1 o.data
  | 16 => storeBytes m o.address 2 o.data
  | 32 => storeBytes m o.address 4 o.data
  | 64 => storeBytes m o.address 8 o.data
  | _ => m

/-- The AND / OR / XOR dispatch. -/
def rmwMem (f : Nat → Nat → Nat) (o : Op) (m : Mem) : Mem :=
  match o.width with
  | 8 => storeBytes m o.address 1 (f (loadBytes m o.address 1) o.data)
  | 16 => storeBytes m o.address 2 (f (loadBytes m o.address 2) o.data)
  | 32 => storeBytes m o.address 4 (f (loadBytes m o.address 4) o.data)
  | 64 => storeBytes m o.address 8 (f (loadBytes m o.address 8) o.data)
  | _ => m

/-- One iteration of the operation loop. -/
def step (o : Op) (m : Mem) : Mem × List String :=
  match o.operator with
  | .READ => (m, readOut o m)
  | .WRITE => (writeMem o m, [])
  | .AND => (rmwMem (fun x y => x &&& y) o m, [])
  | .OR => (rmwMem (fun x y => x ||| y) o m, [])
  | .XOR => (rmwMem (fun x y => x ^^^ y) o m, [])

/-- The operation loop, in command-line order. -/
def exec : List Op → Mem → Mem × List String
  | [], m => (m, [])
  | o :: os, m =>
    let r1 := step o m
    let r2 := exec os r1.1
    (r2.1, r1.2 ++ r2.2)

/-- Usage text marker (full help text elided; not claim-relevant). -/
def usageText : String := "Usage: mem [mode] operation [... [mode] operation]\n"

/-- Outcome of a run of the extended `main`. -/
structure RunResult where
  exit : Nat
  out : List String
  err : List String
  mem : Mem
  opened : Bool
  trace : List Op

/-- Model of the extended `main` on `argv[1..]`, for a run in which
`/dev/mem` opens and every `mmap` succeeds. -/
def run (args : List String) (m : Mem) : RunResult :=
  match parse args with
  | .error e => ⟨1, [], [e], m, false, []⟩
  | .ok [] => ⟨1, [], [usageText], m, false, []⟩
  | .ok ops =>
    let r := exec ops m
    ⟨0, r.2, [], r.1, true, ops⟩

end X

/-! ## Byte-store lemmas -/

theorem pow256_eq (k : Nat) : 256 ^ k = 2 ^ (8 * k) := by
  have h : (256 : Nat) = 2 ^ 8 := by norm_num
  rw [h, ← pow_mul]

theorem loadBytes_lt (m : Mem) (a k : Nat) : loadBytes m a k < 256 ^ k := by
  induction k generalizing a with
  | zero => simp [loadBytes]
  | succ k ih =>
    have h1 : m a % 256 < 256 := Nat.mod_lt _ (by norm_num)
    have h2 := ih (a + 1)
    simp only [loadBytes, pow_succ]
    omega

theorem loadBytes_congr {m1 m2 : Mem} {a k : Nat}
    (h : ∀ i, i < k → m1 (a + i) = m2 (a + i)) :
    loadBytes m1 a k = loadBytes m2 a k := by
  induction k generalizing a with
  | zero => simp [loadBytes]
  | succ k ih =>
    simp only [loadBytes]
    have h0 : m1 a = m2 a := by
      have := h 0 (Nat.succ_pos k)
      simpa using this
    rw [h0, ih]
    intro i hi
    have := h (1 + i) (by omega)
    rw [show a + (1 + i) = a + 1 + i by omega] at this
    exact this

theorem storeBytes_in {m : Mem} {a k v x : Nat} (h1 : a ≤ x) (h2 : x < a + k) :
    storeBytes m a k v x = v / 256 ^ (x - a) % 256 := by
  simp [storeBytes, h1, h2]

theorem storeBytes_out {m : Mem} {a k v x : Nat} (h : ¬(a ≤ x ∧ x < a + k)) :
    storeBytes m a k v x = m x := by
  simp only [storeBytes, if_neg h]

theorem loadBytes_storeBytes (m : Mem) (a k v : Nat) :
    loadBytes (storeBytes m a k v) a k = v % 256 ^ k := by
  induction k generalizing m a v with
  | zero => simp [loadBytes, Nat.mod_one]
  | succ k ih =>
    simp only [loadBytes]
    have hbase : storeBytes m a (k + 1) v a = v % 256 := by
      rw [storeBytes_in (Nat.le_refl a) (by omega)]
      simp
    have htail : loadBytes (storeBytes m a (k + 1) v) (a + 1) k
        = loadBytes (storeBytes m (a + 1) k (v / 256)) (a + 1) k := by
      apply loadBytes_congr
      intro i hi
      rw [storeBytes_in (by omega) (by omega), storeBytes_in (by omega) (by omega)]
      rw [show a + 1 + i - a = i + 1 by omega, show a + 1 + i - (a + 1) = i by omega]
      rw [Nat.div_div_eq_div_mul, pow_succ, Nat.mul_comm (256 ^ i) 256]
    rw [hbase, htail, ih]
    have key : v % 256 ^ (k + 1) = v % 256 + 256 * (v / 256 % 256 ^ k) := by
      rw [pow_succ, Nat.mul_comm (256 ^ k) 256, Nat.mod_mul]
    omega

theorem storeBytes_mod (m : Mem) (a k v : Nat) :
    storeBytes m a k v = storeBytes m a k (v % 256 ^ k) := by
  funext x
  by_cases h : a ≤ x ∧ x < a + k
  · rw [storeBytes_in h.1 h.2, storeBytes_in h.1 h.2]
    have hd : x - a < k := by omega
    have hdvd : (256 : Nat) ^ (x - a) * 256 ∣ 256 ^ k := by
      rw [← pow_succ]
      exact Nat.pow_dvd_pow 256 (by omega)
    calc v / 256 ^ (x - a) % 256
        = v % (256 ^ (x - a) * 256) / 256 ^ (x - a) := (Nat.mod_mul_right_div_self v _ 256).symm
      _ = v % 256 ^ k % (256 ^ (x - a) * 256) / 256 ^ (x - a) := by
          rw [Nat.mod_mod_of_dvd v hdvd]
      _ = v % 256 ^ k / 256 ^ (x - a) % 256 := Nat.mod_mul_right_div_self _ _ 256
  · rw [storeBytes_out h, storeBytes_out h]

/-! ## Byte-swap lemmas -/

theorem toBytesLE_length (k v : Nat) : (toBytesLE k v).length = k := by
  induction k generalizing v with
  | zero => simp [toBytesLE]
  | succ k ih => simp [toBytesLE, ih]

theorem toBytesLE_lt {k v : Nat} : ∀ b ∈ toBytesLE k v, b < 256 := by
  induction k generalizing v with
  | zero => simp [toBytesLE]
  | succ k ih =>
    intro b hb
    simp only [toBytesLE, List.mem_cons] at hb
    rcases hb with h | h
    · subst h; exact Nat.mod_lt _ (by norm_num)
    · exact ih b h

theorem fromBytesLE_toBytesLE (k v : Nat) :
    fromBytesLE (toBytesLE k v) = v % 256 ^ k := by
  induction k generalizing v with
  | zero => simp [toBytesLE, fromBytesLE, Nat.mod_one]
  | succ k ih =>
    simp only [toBytesLE, fromBytesLE, ih]
    have key : v % 256 ^ (k + 1) = v % 256 + 256 * (v / 256 % 256 ^ k) := by
      rw [pow_succ, Nat.mul_comm (256 ^ k) 256, Nat.mod_mul]
    omega

theorem fromBytesLE_lt (bs : List Nat) : fromBytesLE bs < 256 ^ bs.length := by
  induction bs with
  | nil => simp [fromBytesLE]
  | cons b bs ih =>
    have h1 : b % 256 < 256 := Nat.mod_lt _ (by norm_num)
    simp only [fromBytesLE, List.length_cons, pow_succ]
    omega

theorem toBytesLE_fromBytesLE (bs : List Nat) (hb : ∀ b ∈ bs, b < 256) :
    toBytesLE bs.length (fromBytesLE bs) = bs := by
  induction bs with
  | nil => simp [toBytesLE, fromBytesLE]
  | cons b bs ih =>
    have hblt : b < 256 := hb b (List.mem_cons_self b bs)
    simp only [List.length_cons, toBytesLE, fromBytesLE]
    have hmod : (b % 256 + 256 * fromBytesLE bs) % 256 = b := by omega
    have hdiv : (b % 256 + 256 * fromBytesLE bs) / 256 = fromBytesLE bs := by omega
    rw [hmod, hdiv, ih (fun x hx => hb x (List.mem_cons_of_mem b hx))]

theorem bswapBytes_lt (k v : Nat) : bswapBytes k v < 256 ^ k := by
  have h := fromBytesLE_lt (toBytesLE k v).reverse
  rwa [List.length_reverse, toBytesLE_length] at h

theorem bswapBytes_bswapBytes (k v : Nat) :
    bswapBytes k (bswapBytes k v) = v % 256 ^ k := by
  unfold bswapBytes
  have hlen : ((toBytesLE k v).reverse).length = k := by
    rw [List.length_reverse, toBytesLE_length]
  have hbs : ∀ b ∈ (toBytesLE k v).reverse, b < 256 := by
    intro b hb
    exact toBytesLE_lt b (List.mem_reverse.mp hb)
  have h1 := toBytesLE_fromBytesLE (toBytesLE k v).reverse hbs
  rw [hlen] at h1
  rw [h1, List.reverse_reverse, fromBytesLE_toBytesLE]

theorem toBytesLE_mod (k v : Nat) : toBytesLE k (v % 256 ^ k) = toBytesLE k v := by
  induction k generalizing v with
  | zero => simp [toBytesLE]
  | succ k ih =>
    simp only [toBytesLE]
    have h1 : v % 256 ^ (k + 1) % 256 = v % 256 :=
      Nat.mod_mod_of_dvd v (dvd_pow_self 256 (Nat.succ_ne_zero k))
    have h2 : v % 256 ^ (k + 1) / 256 = v / 256 % 256 ^ k := by
      rw [pow_succ, Nat.mul_comm (256 ^ k) 256]
      exact Nat.mod_mul_right_div_self v 256 (256 ^ k)
    rw [h1, h2, ih (v / 256)]

theorem bswapBytes_mod (k v : Nat) : bswapBytes k (v % 256 ^ k) = bswapBytes k v := by
  unfold bswapBytes
  rw [toBytesLE_mod]

/-! ## Hex-formatting lemmas -/

/-- A character is an uppercase hexadecimal digit. -/
def isUpperHexDigit (c : Char) : Prop :=
  ('0' ≤ c ∧ c ≤ '9') ∨ ('A' ≤ c ∧ c ≤ 'F')

instance (c : Char) : Decidable (isUpperHexDigit c) := by
  unfold isUpperHexDigit
  infer_instance

theorem hexChar_upper : ∀ d, d < 16 → isUpperHexDigit (hexChar d) := by decide

theorem toHexRevGo_congr : ∀ (f1 f2 n : Nat), n ≤ f1 → n ≤ f2 →
    toHexRevGo f1 n = toHexRevGo f2 n := by
  intro f1
  induction f1 with
  | zero =>
    intro f2 n h1 h2
    interval_cases n
    cases f2 <;> rfl
  | succ f1 ih =>
    intro f2 n h1 h2
    match n, f2 with
    | 0, f2 => cases f2 <;> rfl
    | n + 1, f2 + 1 =>
      simp only [toHexRevGo]
      have hd : (n + 1) / 16 < n + 1 := Nat.div_lt_self (Nat.succ_pos n) (by norm_num)
      rw [ih f2 ((n + 1) / 16) (by omega) (by omega)]

theorem toHexRev_zero : toHexRev 0 = [] := rfl

theorem toHexRev_succ (n : Nat) :
    toHexRev (n + 1) = hexChar ((n + 1) % 16) :: toHexRev ((n + 1) / 16) := by
  show toHexRevGo (n + 1) (n + 1) = hexChar ((n + 1) % 16) :: toHexRevGo ((n + 1) / 16) ((n + 1) / 16)
  simp only [toHexRevGo]
  have hd : (n + 1) / 16 < n + 1 := Nat.div_lt_self (Nat.succ_pos n) (by norm_num)
  rw [toHexRevGo_congr n ((n + 1) / 16) ((n + 1) / 16) (by omega) (by omega)]

theorem hexVal_hexChar : ∀ d, d < 16 → hexVal? (hexChar d) = some d := by decide

/-- Numeric value of a reversed hex digit list (least-significant first). -/
def fromHexRev : List Char → Nat
  | [] => 0
  | c :: cs => (hexVal? c).getD 0 + 16 * fromHexRev cs

/-- `toHexRev` is a genuine base-16 representation: reading its digits back
recovers the number. -/
theorem fromHexRev_toHexRev (n : Nat) : fromHexRev (toHexRev n) = n := by
  induction n using Nat.strong_induction_on with
  | _ n ih =>
    match n with
    | 0 => simp [toHexRev_zero, fromHexRev]
    | n + 1 =>
      have hdiv : (n + 1) / 16 < n + 1 := Nat.div_lt_self (Nat.succ_pos n) (by norm_num)
      have hgo : toHexRevGo n ((n + 1) / 16) = toHexRev ((n + 1) / 16) :=
        toHexRevGo_congr n ((n + 1) / 16) ((n + 1) / 16) (by omega) (by omega)
      show fromHexRev (toHexRevGo (n + 1) (n + 1)) = n + 1
      simp only [toHexRevGo, fromHexRev, hgo,
        hexVal_hexChar ((n + 1) % 16) (Nat.mod_lt _ (by norm_num)),
        Option.getD_some, ih ((n + 1) / 16) hdiv]
      omega

theorem toHexRev_length_le {n d : Nat} (h : n < 16 ^ d) : (toHexRev n).length ≤ d := by
  induction d generalizing n with
  | zero =>
    have : n = 0 := by simpa using h
    subst this
    simp [toHexRev_zero]
  | succ d ih =>
    match n with
    | 0 => simp [toHexRev_zero]
    | n + 1 =>
      simp only [toHexRev_succ, List.length_cons]
      have hlt : (n + 1) / 16 < 16 ^ d := by
        apply Nat.div_lt_of_lt_mul
        calc n + 1 < 16 ^ (d + 1) := h
          _ = 16 * 16 ^ d := by ring
      have := ih hlt
      omega

theorem toHexRev_chars {n : Nat} : ∀ c ∈ toHexRev n, isUpperHexDigit c := by
  induction n using Nat.strong_induction_on with
  | _ n ih =>
    match n with
    | 0 => simp [toHexRev_zero]
    | n + 1 =>
      intro c hc
      simp only [toHexRev_succ, List.mem_cons] at hc
      rcases hc with h | h
      · subst h
        exact hexChar_upper _ (Nat.mod_lt _ (by norm_num))
      · exact ih ((n + 1) / 16) (Nat.div_lt_self (Nat.succ_pos n) (by norm_num)) c h

theorem hexPad_length {n d : Nat} (h : n < 16 ^ d) : (hexPad d n).length = d := by
  have hle := toHexRev_length_le h
  simp only [hexPad, String.length, String.mk, List.length_append,
    List.length_replicate, List.length_reverse]
  omega

theorem hexPad_chars {n d : Nat} : ∀ c ∈ (hexPad d n).data, isUpperHexDigit c := by
  intro c hc
  simp only [hexPad, String.mk, List.mem_append, List.mem_replicate, List.mem_reverse] at hc
  rcases hc with ⟨_, h⟩ | h
  · subst h
    left
    constructor <;> decide
  · exact toHexRev_chars c h

/-! ## Parser structural lemmas -/

theorem exceptMap_ok {α β γ : Type} {f : β → γ} {x : Except α β} {y : γ}
    (h : x.map f = .ok y) : ∃ b, x = .ok b ∧ y = f b := by
  cases x with
  | error e => simp [Except.map] at h
  | ok b =>
    refine ⟨b, rfl, ?_⟩
    simp [Except.map] at h
    exact h.symm

theorem exceptMap_error {α β γ : Type} {f : β → γ} {x : Except α β} {e : α}
    (h : x = .error e) : x.map f = .error e := by
  subst h
  rfl

namespace M

theorem parseM_nil (w c : Nat) : parseFrom w c [] = .ok [] := rfl

theorem parseM_mode {t : String} {w' : Nat} (h : mode? t = some w')
    (w c : Nat) (ts : List String) : parseFrom w c (t :: ts) = parseFrom w' c ts := by
  simp [parseFrom, h]

theorem parseM_limit {t : String} (h : mode? t = none)
    (w : Nat) (ts : List String) :
    parseFrom w MAXOPS (t :: ts) = .error "Too many operations\n" := by
  simp [parseFrom, h]

theorem parseM_op {t : String} {o : TokOp} {c : Nat} (h : mode? t = none)
    (hc : c ≠ MAXOPS) (ho : tokParse t.data = some o) (w : Nat) (ts : List String) :
    parseFrom w c (t :: ts)
      = (parseFrom w (c + 1) ts).map
          (fun rest => ⟨o.operator, w, o.address, o.data⟩ :: rest) := by
  simp [parseFrom, h, hc, ho]

theorem parseM_choke {t : String} {c : Nat} (h : mode? t = none)
    (hc : c ≠ MAXOPS) (ho : tokParse t.data = none) (w : Nat) (ts : List String) :
    parseFrom w c (t :: ts) = .error ("\x27" ++ t ++ "\x27 is invalid\n") := by
  simp [parseFrom, h, hc, ho]

/-- A successful parse consumed every non-mode token as one appended
operation, and the capacity check bounds the total. -/
theorem parseM_ok_shape {w c : Nat} {ts : List String} {ops : List Op}
    (h : parseFrom w c ts = .ok ops) (hc : c ≤ MAXOPS) :
    ops.length = (ts.filter (fun t => (mode? t).isNone)).length
      ∧ c + ops.length ≤ MAXOPS := by
  induction ts generalizing w c ops with
  | nil =>
    rw [parseM_nil] at h
    cases h
    simpa using hc
  | cons t ts ih =>
    cases hm : mode? t with
    | some w' =>
      rw [parseM_mode hm] at h
      have := ih h hc
      simpa [List.filter, hm] using this
    | none =>
      by_cases hceq : c = MAXOPS
      · subst hceq
        rw [parseM_limit hm] at h
        cases h
      · cases ho : tokParse t.data with
        | none =>
          rw [parseM_choke hm hceq ho] at h
          cases h
        | some o =>
          rw [parseM_op hm hceq ho] at h
          obtain ⟨rest, hrest, hops⟩ := exceptMap_ok h
          subst hops
          have hc1 : c + 1 ≤ MAXOPS := by
            have : c < MAXOPS := Nat.lt_of_le_of_ne hc hceq
            omega
          have := ih hrest hc1
          constructor
          · simp [List.filter, hm, this.1]
          · have := this.2
            simp only [List.length_cons]
            omega

/-- If some token in the list is invalid (neither consumed as a mode token
nor a well-formed operation token), the parse fails. -/
theorem parseM_error_of_invalid {w c : Nat} {ts : List String}
    (h : ∃ t ∈ ts, mode? t = none ∧ tokParse t.data = none) :
    ∃ e, parseFrom w c ts = .error e := by
  induction ts generalizing w c with
  | nil => simp at h
  | cons t ts ih =>
    obtain ⟨u, hu, hum, hut⟩ := h
    cases hm : mode? t with
    | some w' =>
      rw [parseM_mode hm]
      apply ih
      rcases List.mem_cons.mp hu with rfl | hmem
      · rw [hm] at hum
        cases hum
      · exact ⟨u, hmem, hum, hut⟩
    | none =>
      by_cases hceq : c = MAXOPS
      · subst hceq
        exact ⟨_, parseM_limit hm w ts⟩
      · cases ho : tokParse t.data with
        | none => exact ⟨_, parseM_choke hm hceq ho w ts⟩
        | some o =>
          rcases List.mem_cons.mp hu with rfl | hmem
          · rw [ho] at hut
            cases hut
          · obtain ⟨e, he⟩ := ih (c := c + 1) (w := w) ⟨u, hmem, hum, hut⟩
            rw [parseM_op hm hceq ho]
            exact ⟨e, exceptMap_error he⟩

/-- When every token before an invalid token is valid and fewer than
`MAXOPS` of them are operation tokens, the parse error names the invalid
token (the capacity check never fires first). -/
theorem parseM_prefix_invalid {w c : Nat} {pre suf : List String} {t : String}
    (hpre : ∀ u ∈ pre, (mode? u).isSome ∨ (tokParse u.data).isSome)
    (hm : mode? t = none) (ht : tokParse t.data = none)
    (hcnt : c + (pre.filter (fun u => (mode? u).isNone)).length < MAXOPS) :
    parseFrom w c (pre ++ t :: suf) = .error ("\x27" ++ t ++ "\x27 is invalid\n") := by
  induction pre generalizing w c with
  | nil =>
    simp only [List.nil_append]
    exact parseM_choke hm (by simpa using Nat.ne_of_lt hcnt) ht w suf
  | cons u pre ih =>
    have hu := hpre u (List.mem_cons_self u pre)
    have hpre' : ∀ v ∈ pre, (mode? v).isSome ∨ (tokParse v.data).isSome :=
      fun v hv => hpre v (List.mem_cons_of_mem u hv)
    cases hum : mode? u with
    | some w' =>
      rw [List.cons_append, parseM_mode hum]
      apply ih hpre'
      simpa [List.filter, hum] using hcnt
    | none =>
      cases hut : tokParse u.data with
      | none =>
        rcases hu with h | h
        · rw [hum] at h
          cases h
        · rw [hut] at h
          cases h
      | some o =>
        have hcm : c ≠ MAXOPS := by
          have : c < MAXOPS := by
            have h1 : 1 ≤ ((u :: pre).filter (fun v => (mode? v).isNone)).length := by
              simp [List.filter, hum]
            have h2 := hcnt
            simp only [List.filter, hum, Option.isNone_none, List.length_cons] at h2
            omega
          omega
        rw [List.cons_append, parseM_op hum hcm hut]
        have := ih hpre' (c := c + 1) (w := w) (by
          have h2 := hcnt
          simp only [List.filter, hum, Option.isNone_none, List.length_cons] at h2
          omega)
        exact exceptMap_error this

end M

namespace X

theorem parseX_nil (w : Nat) (s : Bool) (c : Nat) : parseFrom w s c [] = .ok [] := rfl

theorem parseX_mode {t : String} {ws : Nat × Bool} (h : mode? t = some ws)
    (w : Nat) (s : Bool) (c : Nat) (ts : List String) :
    parseFrom w s c (t :: ts) = parseFrom ws.1 ws.2 c ts := by
  simp [parseFrom, h]

theorem parseX_limit {t : String} (h : mode? t = none)
    (w : Nat) (s : Bool) (ts : List String) :
    parseFrom w s MAXOPS (t :: ts) = .error "Too many operations\n" := by
  simp [parseFrom, h]

theorem parseX_op {t : String} {o : TokOp} {c : Nat} (h : mode? t = none)
    (hc : c ≠ MAXOPS) (ho : tokParse t.data = some o) (w : Nat) (s : Bool)
    (ts : List String) :
    parseFrom w s c (t :: ts)
      = (parseFrom w s (c + 1) ts).map
          (fun rest => ⟨o.operator, w, s, o.address, parseData w s o.data⟩ :: rest) := by
  simp [parseFrom, h, hc, ho]

theorem parseX_choke {t : String} {c : Nat} (h : mode? t = none)
    (hc : c ≠ MAXOPS) (ho : tokParse t.data = none) (w : Nat) (s : Bool)
    (ts : List String) :
    parseFrom w s c (t :: ts) = .error ("\x27" ++ t ++ "\x27 is invalid\n") := by
  simp [parseFrom, h, hc, ho]

/-- A successful parse consumed every non-mode token as one appended
operation, and the capacity check bounds the total. -/
theorem parseX_ok_shape {w : Nat} {s : Bool} {c : Nat} {ts : List String}
    {ops : List Op} (h : parseFrom w s c ts = .ok ops) (hc : c ≤ MAXOPS) :
    ops.length = (ts.filter (fun t => (mode? t).isNone)).length
      ∧ c + ops.length ≤ MAXOPS := by
  induction ts generalizing w s c ops with
  | nil =>
    rw [parseX_nil] at h
    cases h
    simpa using hc
  | cons t ts ih =>
    cases hm : mode? t with
    | some ws =>
      rw [parseX_mode hm] at h
      have := ih h hc
      simpa [List.filter, hm] using this
    | none =>
      by_cases hceq : c = MAXOPS
      · subst hceq
        rw [parseX_limit hm] at h
        cases h
      · cases ho : tokParse t.data with
        | none =>
          rw [parseX_choke hm hceq ho] at h
          cases h
        | some o =>
          rw [parseX_op hm hceq ho] at h
          obtain ⟨rest, hrest, hops⟩ := exceptMap_ok h
          subst hops
          have hc1 : c + 1 ≤ MAXOPS := by
            have : c < MAXOPS := Nat.lt_of_le_of_ne hc hceq
            omega
          have := ih hrest hc1
          constructor
          · simp [List.filter, hm, this.1]
          · have := this.2
            simp only [List.length_cons]
            omega

/-- If some token in the list is invalid, the parse fails. -/
theorem parseX_error_of_invalid {w : Nat} {s : Bool} {c : Nat} {ts : List String}
    (h : ∃ t ∈ ts, mode? t = none ∧ tokParse t.data = none) :
    ∃ e, parseFrom w s c ts = .error e := by
  induction ts generalizing w s c with
  | nil => simp at h
  | cons t ts ih =>
    obtain ⟨u, hu, hum, hut⟩ := h
    cases hm : mode? t with
    | some ws =>
      rw [parseX_mode hm]
      apply ih
      rcases List.mem_cons.mp hu with rfl | hmem
      · rw [hm] at hum
        cases hum
      · exact ⟨u, hmem, hum, hut⟩
    | none =>
      by_cases hceq : c = MAXOPS
      · subst hceq
        exact ⟨_, parseX_limit hm w s ts⟩
      · cases ho : tokParse t.data with
        | none => exact ⟨_, parseX_choke hm hceq ho w s ts⟩
        | some o =>
          rcases List.mem_cons.mp hu with rfl | hmem
          · rw [ho] at hut
            cases hut
          · obtain ⟨e, he⟩ := ih (c := c + 1) (w := w) (s := s) ⟨u, hmem, hum, hut⟩
            rw [parseX_op hm hceq ho]
            exact ⟨e, exceptMap_error he⟩

/-- When every token before an invalid token is valid and fewer than
`MAXOPS` of them are operation tokens, the parse error names the invalid
token. -/
theorem parseX_prefix_invalid {w : Nat} {s : Bool} {c : Nat}
    {pre suf : List String} {t : String}
    (hpre : ∀ u ∈ pre, (mode? u).isSome ∨ (tokParse u.data).isSome)
    (hm : mode? t = none) (ht : tokParse t.data = none)
    (hcnt : c + (pre.filter (fun u => (mode? u).isNone)).length < MAXOPS) :
    parseFrom w s c (pre ++ t :: suf) = .error ("\x27" ++ t ++ "\x27 is invalid\n") := by
  induction pre generalizing w s c with
  | nil =>
    simp only [List.nil_append]
    exact parseX_choke hm (by simpa using Nat.ne_of_lt hcnt) ht w s suf
  | cons u pre ih =>
    have hu := hpre u (List.mem_cons_self u pre)
    have hpre' : ∀ v ∈ pre, (mode? v).isSome ∨ (tokParse v.data).isSome :=
      fun v hv => hpre v (List.mem_cons_of_mem u hv)
    cases hum : mode? u with
    | some ws =>
      rw [List.cons_append, parseX_mode hum]
      apply ih hpre'
      simpa [List.filter, hum] using hcnt
    | none =>
      cases hut : tokParse u.data with
      | none =>
        rcases hu with h | h
        · rw [hum] at h
          cases h
        · rw [hut] at h
          cases h
      | some o =>
        have hcm : c ≠ MAXOPS := by
          have : c < MAXOPS := by
            have h2 := hcnt
            simp only [List.filter, hum, Option.isNone_none, List.length_cons] at h2
            omega
          omega
        rw [List.cons_append, parseX_op hum hcm hut]
        have := ih hpre' (c := c + 1) (w := w) (s := s) (by
          have h2 := hcnt
          simp only [List.filter, hum, Option.isNone_none, List.length_cons] at h2
          omega)
        exact exceptMap_error this

end X

/-! ## Bitwise truncation lemmas -/

theorem land_mod_pow2 (x v n : Nat) : (x &&& v % 2 ^ n) % 2 ^ n = (x &&& v) % 2 ^ n := by
  apply Nat.eq_of_testBit_eq
  intro i
  simp only [Nat.testBit_mod_two_pow, Nat.testBit_land]
  by_cases h : i < n <;> simp [h]

theorem lor_mod_pow2 (x v n : Nat) : (x ||| v % 2 ^ n) % 2 ^ n = (x ||| v) % 2 ^ n := by
  apply Nat.eq_of_testBit_eq
  intro i
  simp only [Nat.testBit_mod_two_pow, Nat.testBit_lor]
  by_cases h : i < n <;> simp [h]

theorem xor_mod_pow2 (x v n : Nat) : (x ^^^ v % 2 ^ n) % 2 ^ n = (x ^^^ v) % 2 ^ n := by
  apply Nat.eq_of_testBit_eq
  intro i
  simp only [Nat.testBit_mod_two_pow, Nat.testBit_xor]
  by_cases h : i < n <;> simp [h]

theorem storeBytes_congr_mod {v1 v2 : Nat} (m : Mem) (a k : Nat)
    (h : v1 % 256 ^ k = v2 % 256 ^ k) : storeBytes m a k v1 = storeBytes m a k v2 := by
  rw [storeBytes_mod m a k v1, storeBytes_mod m a k v2, h]

theorem toBytesLE_zero (k : Nat) : toBytesLE k 0 = List.replicate k 0 := by
  induction k with
  | zero => simp [toBytesLE]
  | succ k ih => simp [toBytesLE, ih, List.replicate_succ]

theorem fromBytesLE_replicate_zero (k : Nat) : fromBytesLE (List.replicate k 0) = 0 := by
  induction k with
  | zero => simp [fromBytesLE]
  | succ k ih => simp [List.replicate_succ, fromBytesLE, ih]

theorem bswapBytes_zero (k : Nat) : bswapBytes k 0 = 0 := by
  unfold bswapBytes
  rw [toBytesLE_zero, List.reverse_replicate, fromBytesLE_replicate_zero]

theorem parseData_zero (w : Nat) (s : Bool) : X.parseData w s 0 = 0 := by
  unfold X.parseData
  cases s with
  | false => rfl
  | true =>
    simp only [if_true]
    split
    · exact bswapBytes_zero 2
    · exact bswapBytes_zero 4
    · exact bswapBytes_zero 8
    · rfl

/-! ## Claim theorems -/

/-- Claim C2 (code bug): the page size used by `mem.c`'s executor is the
hard-coded constant 4096 (`#define PAGESIZE 4096 // XXX get this from
sysconf?`), not the runtime page size. On a system whose page size is
16384 (e.g. 16K-page AArch64), for the operation at address 4096 the code
computes page offset 0, while `address mod pageSize` — as computed by the
extended variant, which does query `getpagesize()` — is 4096. -/
theorem C2_pagesize_hardcoded :
    M.pageOffset 4096 = 0
      ∧ X.pageOffset 16384 4096 = 4096
      ∧ M.pageOffset 4096 ≠ X.pageOffset 16384 4096 := by
  refine ⟨rfl, rfl, by decide⟩

/-- Claim C4: with `pageOffset = address mod pageSize`, the mapped region
starts at `address - pageOffset`, its size is `2 * pageSize` exactly when
`pageOffset + width/8 > pageSize` and `pageSize` otherwise, and the full
`width/8`-byte access at offset `pageOffset` lies within the mapped region.
Stated for the extended variant with the runtime page size `ps` (positive,
at least the access width) and for the basic variant with its constant
page size 4096. -/
theorem C4_map_covers_access :
    (∀ ps a w : Nat, 0 < ps → w / 8 ≤ ps →
      X.pageOffset ps a + w / 8 ≤ X.mapSize ps w a
        ∧ X.mapStart ps a + X.pageOffset ps a = a
        ∧ X.mapSize ps w a = (if ps < X.pageOffset ps a + w / 8 then 2 * ps else ps))
    ∧ (∀ a w : Nat, w / 8 ≤ 4096 →
      M.pageOffset a + w / 8 ≤ M.mapSize w a
        ∧ M.mapStart a + M.pageOffset a = a
        ∧ M.mapSize w a = (if 4096 < M.pageOffset a + w / 8 then 2 * 4096 else 4096)) := by
  constructor
  · intro ps a w hps hw
    have hoff : a % ps < ps := Nat.mod_lt _ hps
    refine ⟨?_, ?_, rfl⟩
    · unfold X.mapSize X.pageOffset
      by_cases hcross : ps < a % ps + w / 8
      · rw [if_pos hcross]
        omega
      · rw [if_neg hcross]
        omega
    · unfold X.mapStart X.pageOffset
      exact Nat.sub_add_cancel (Nat.mod_le a ps)
  · intro a w hw
    have hoff : a % 4096 < 4096 := Nat.mod_lt _ (by norm_num)
    refine ⟨?_, ?_, rfl⟩
    · unfold M.mapSize M.pageOffset M.PAGESIZE
      by_cases hcross : 4096 < a % 4096 + w / 8
      · rw [if_pos (by simpa [M.pageOffset, M.PAGESIZE] using hcross)]
        omega
      · rw [if_neg (by simpa [M.pageOffset, M.PAGESIZE] using hcross)]
        omega
    · unfold M.mapStart M.pageOffset M.PAGESIZE
      exact Nat.sub_add_cancel (Nat.mod_le a 4096)

/-- Witness for C4 at a concrete page-crossing input: page size 4096,
address 4094, width 32 (offset 4094 + 4 bytes crosses the boundary, so the
mapping is two pages and still covers the access). -/
theorem C4_witness :
    (0 : Nat) < 4096 ∧ 32 / 8 ≤ 4096
      ∧ (X.pageOffset 4096 4094 + 32 / 8 ≤ X.mapSize 4096 32 4094
        ∧ X.mapStart 4096 4094 + X.pageOffset 4096 4094 = 4094
        ∧ X.mapSize 4096 32 4094
            = (if 4096 < X.pageOffset 4096 4094 + 32 / 8 then 2 * 4096 else 4096)) :=
  ⟨by norm_num, by norm_num, C4_map_covers_access.1 4096 4094 32 (by norm_num) (by norm_num)⟩

/-- Claim C3 is false as stated: the token `"bx"` is neither a
single-character mode token nor a well-formed operation token, yet the
program does not fail — the `switch (*arg)` consumes any token whose FIRST
character is a mode character. `mem bx 0x100` parses successfully into one
8-bit read and the program proceeds to access memory with exit status 0. -/
theorem C3_counterexample :
    M.parse ["bx", "0x100"] = .ok [⟨.READ, 8, 256, 0⟩]
      ∧ (M.run ["bx", "0x100"] (fun _ => 0)).exit = 0
      ∧ (M.run ["bx", "0x100"] (fun _ => 0)).opened = true := by
  refine ⟨rfl, rfl, rfl⟩

/-- Claim C3 amended: a token is treated as a mode token if and only if
its FIRST character is one of the mode characters (b, h, w, d, and in the
extended variant H, W, D), regardless of any following characters; a token
whose first character is not a mode character and that is not a
well-formed operation token is a fatal usage error with non-zero exit. -/
theorem C3_amended_holds :
    (∀ (c : Char) (cs : List Char), M.mode? (String.mk (c :: cs)) = M.modeChar c)
    ∧ (∀ c : Char, c ≠ 'b' → c ≠ 'h' → c ≠ 'w' → c ≠ 'd' → M.modeChar c = none)
    ∧ (∀ (t : String) (w' w c : Nat) (ts : List String), M.mode? t = some w' →
        M.parseFrom w c (t :: ts) = M.parseFrom w' c ts)
    ∧ (∀ args : List String,
        (∃ t ∈ args, M.mode? t = none ∧ tokParse t.data = none) →
        ∃ e, M.parse args = .error e)
    ∧ (∀ (c : Char) (cs : List Char), X.mode? (String.mk (c :: cs)) = X.modeChar c)
    ∧ (∀ c : Char, c ≠ 'b' → c ≠ 'h' → c ≠ 'w' → c ≠ 'd' →
        c ≠ 'H' → c ≠ 'W' → c ≠ 'D' → X.modeChar c = none)
    ∧ (∀ (t : String) (ws : Nat × Bool) (w : Nat) (s : Bool) (c : Nat)
        (ts : List String), X.mode? t = some ws →
        X.parseFrom w s c (t :: ts) = X.parseFrom ws.1 ws.2 c ts)
    ∧ (∀ args : List String,
        (∃ t ∈ args, X.mode? t = none ∧ tokParse t.data = none) →
        ∃ e, X.parse args = .error e) := by
  refine ⟨fun c cs => rfl, ?_, ?_, ?_, fun c cs => rfl, ?_, ?_, ?_⟩
  · intro c h1 h2 h3 h4
    simp [M.modeChar, h1, h2, h3, h4]
  · intro t w' w c ts h
    exact M.parseM_mode h w c ts
  · intro args h
    exact M.parseM_error_of_invalid h
  · intro c h1 h2 h3 h4 h5 h6 h7
    simp [X.modeChar, h1, h2, h3, h4, h5, h6, h7]
  · intro t ws w s c ts h
    exact X.parseX_mode h w s c ts
  · intro args h
    exact X.parseX_error_of_invalid h

/-- Witness for C3 amended: `"hello"` is consumed as the 16-bit mode token
`h`; `["5", "=x"]` fails because `"=x"` is invalid. -/
theorem C3_witness :
    M.mode? (String.mk ('h' :: ['e', 'l', 'l', 'o'])) = M.modeChar 'h'
      ∧ M.mode? "hello" = some 16
      ∧ (∃ t ∈ ["5", "=x"], M.mode? t = none ∧ tokParse t.data = none)
      ∧ (∃ e, M.parse ["5", "=x"] = .error e) := by
  refine ⟨C3_amended_holds.1 'h' ['e', 'l', 'l', 'o'], by decide, by decide, ?_⟩
  exact C3_amended_holds.2.2.2.1 ["5", "=x"] (by decide)

set_option maxRecDepth 100000 in
/-- Claim C1 is false as stated: when 256 valid operation tokens precede
the invalid token, the capacity check fires before the token is parsed, so
the diagnostic is the fixed message `Too many operations` — the offending
token is NOT printed (the claim demands it "regardless of how many valid
operations precede"). The run still exits non-zero with no memory access. -/
theorem C1_counterexample :
    M.parse (List.replicate 256 "0" ++ ["zz"]) = .error "Too many operations\n"
      ∧ "Too many operations\n" ≠ "\x27zz\x27 is invalid\n" := by
  refine ⟨rfl, by decide⟩

/-- Claim C1 amended: for every argument vector containing at least one
invalid token, both variants terminate with non-zero status, print nothing
to stdout, never open the physical-memory device, and execute no memory
operation. The offending token is printed in the diagnostic provided every
token before the first invalid one is valid and fewer than 256 operation
tokens precede it; otherwise the diagnostic may instead be the
operation-limit message. -/
theorem C1_amended_holds :
    (∀ (args : List String) (m : Mem),
        (∃ t ∈ args, M.mode? t = none ∧ tokParse t.data = none) →
        ∃ e, M.parse args = .error e
          ∧ M.run args m = ⟨1, [], [e], m, false, []⟩)
    ∧ (∀ (pre suf : List String) (t : String),
        (∀ u ∈ pre, (M.mode? u).isSome ∨ (tokParse u.data).isSome) →
        M.mode? t = none → tokParse t.data = none →
        (pre.filter (fun u => (M.mode? u).isNone)).length < MAXOPS →
        M.parse (pre ++ t :: suf) = .error ("\x27" ++ t ++ "\x27 is invalid\n"))
    ∧ (∀ (args : List String) (m : Mem),
        (∃ t ∈ args, X.mode? t = none ∧ tokParse t.data = none) →
        ∃ e, X.parse args = .error e
          ∧ X.run args m = ⟨1, [], [e], m, false, []⟩)
    ∧ (∀ (pre suf : List String) (t : String),
        (∀ u ∈ pre, (X.mode? u).isSome ∨ (tokParse u.data).isSome) →
        X.mode? t = none → tokParse t.data = none →
        (pre.filter (fun u => (X.mode? u).isNone)).length < MAXOPS →
        X.parse (pre ++ t :: suf) = .error ("\x27" ++ t ++ "\x27 is invalid\n")) := by
  refine ⟨?_, ?_, ?_, ?_⟩
  · intro args m h
    obtain ⟨e, he⟩ := M.parseM_error_of_invalid (w := 32) (c := 0) h
    exact ⟨e, he, by simp [M.run, M.parse, he]⟩
  · intro pre suf t hpre hm ht hcnt
    exact M.parseM_prefix_invalid hpre hm ht (by simpa using hcnt)
  · intro args m h
    obtain ⟨e, he⟩ := X.parseX_error_of_invalid (w := 32) (s := false) (c := 0) h
    exact ⟨e, he, by simp [X.run, X.parse, he]⟩
  · intro pre suf t hpre hm ht hcnt
    exact X.parseX_prefix_invalid hpre hm ht (by simpa using hcnt)

/-- Witness for C1 amended: `mem h zz 5` — the invalid token `zz` after
one valid mode token is reported by name, the run exits 1, the device is
never opened and no operation executes. -/
theorem C1_witness :
    (∃ t ∈ ["h", "zz", "5"], M.mode? t = none ∧ tokParse t.data = none)
      ∧ (∃ e, M.parse ["h", "zz", "5"] = .error e
          ∧ M.run ["h", "zz", "5"] (fun _ => 0)
              = ⟨1, [], [e], (fun _ => 0), false, []⟩)
      ∧ M.parse (["h"] ++ "zz" :: ["5"]) = .error ("\x27" ++ "zz" ++ "\x27 is invalid\n") := by
  refine ⟨by decide, C1_amended_holds.1 ["h", "zz", "5"] (fun _ => 0) (by decide), ?_⟩
  exact C1_amended_holds.2.1 ["h"] ["5"] "zz" (by decide) (by decide) (by decide) (by decide)

/-- Claim C8: the parser appends at most `MAXOPS = 256` operations. An
argument vector with at least 257 operation tokens (non-mode tokens; mode
tokens do not count toward the limit) always fails to parse, the run exits
non-zero with no device open and no memory access; and every successful
parse yields a list of length at most 256, so every append lands at an
index strictly below the capacity. -/
theorem C8_op_limit :
    (∀ args : List String,
        MAXOPS + 1 ≤ (args.filter (fun t => (M.mode? t).isNone)).length →
        ∃ e, M.parse args = .error e
          ∧ ∀ m : Mem, M.run args m = ⟨1, [], [e], m, false, []⟩)
    ∧ (∀ (args : List String) (ops : List M.Op),
        M.parse args = .ok ops → ops.length ≤ MAXOPS)
    ∧ (∀ args : List String,
        MAXOPS + 1 ≤ (args.filter (fun t => (X.mode? t).isNone)).length →
        ∃ e, X.parse args = .error e
          ∧ ∀ m : Mem, X.run args m = ⟨1, [], [e], m, false, []⟩)
    ∧ (∀ (args : List String) (ops : List X.Op),
        X.parse args = .ok ops → ops.length ≤ MAXOPS) := by
  have hM2 : ∀ (args : List String) (ops : List M.Op),
      M.parse args = .ok ops → ops.length ≤ MAXOPS := by
    intro args ops h
    have := M.parseM_ok_shape (w := 32) (c := 0) h (by norm_num [MAXOPS])
    omega
  have hX2 : ∀ (args : List String) (ops : List X.Op),
      X.parse args = .ok ops → ops.length ≤ MAXOPS := by
    intro args ops h
    have := X.parseX_ok_shape (w := 32) (s := false) (c := 0) h (by norm_num [MAXOPS])
    omega
  refine ⟨?_, hM2, ?_, hX2⟩
  · intro args hlen
    cases h : M.parse args with
    | error e => exact ⟨e, rfl, fun m => by simp [M.run, h]⟩
    | ok ops =>
      have hs := M.parseM_ok_shape (w := 32) (c := 0) h (by norm_num [MAXOPS])
      omega
  · intro args hlen
    cases h : X.parse args with
    | error e => exact ⟨e, rfl, fun m => by simp [X.run, h]⟩
    | ok ops =>
      have hs := X.parseX_ok_shape (w := 32) (s := false) (c := 0) h (by norm_num [MAXOPS])
      omega

set_option maxRecDepth 100000 in
/-- Witness for C8: 257 operation tokens `0` overflow the list and the
parse fails with the operation-limit message; 256 such tokens parse into
exactly 256 operations. -/
theorem C8_witness :
    MAXOPS + 1 ≤ ((List.replicate 257 "0").filter (fun t => (M.mode? t).isNone)).length
      ∧ (∃ e, M.parse (List.replicate 257 "0") = .error e
          ∧ ∀ m : Mem, M.run (List.replicate 257 "0") m = ⟨1, [], [e], m, false, []⟩) := by
  have h1 : MAXOPS + 1
      ≤ ((List.replicate 257 "0").filter (fun t => (M.mode? t).isNone)).length := by
    rw [List.filter_replicate]
    simp [M.mode?, M.modeChar, MAXOPS]
  exact ⟨h1, C8_op_limit.1 (List.replicate 257 "0") h1⟩

/-- Claim C7: parsing starts from the defaults (width 32, and in the
extended variant byteSwap off); a mode token replaces the current mode for
the entire remainder of the argument vector (until the next mode token);
and an operation token captures the mode current at its position — the
rest of the vector is parsed independently, so later mode tokens cannot
change an already-captured operation. -/
theorem C7_mode_persistence :
    (∀ args : List String, M.parse args = M.parseFrom 32 0 args)
    ∧ (∀ (t : String) (w' w c : Nat) (ts : List String), M.mode? t = some w' →
        M.parseFrom w c (t :: ts) = M.parseFrom w' c ts)
    ∧ (∀ (t : String) (w c : Nat) (ts : List String) (ops : List M.Op),
        M.mode? t = none → M.parseFrom w c (t :: ts) = .ok ops →
        ∃ (o : M.Op) (rest : List M.Op),
          ops = o :: rest ∧ o.width = w ∧ M.parseFrom w (c + 1) ts = .ok rest)
    ∧ (∀ args : List String, X.parse args = X.parseFrom 32 false 0 args)
    ∧ (∀ (t : String) (ws : Nat × Bool) (w : Nat) (s : Bool) (c : Nat)
        (ts : List String), X.mode? t = some ws →
        X.parseFrom w s c (t :: ts) = X.parseFrom ws.1 ws.2 c ts)
    ∧ (∀ (t : String) (w : Nat) (s : Bool) (c : Nat) (ts : List String)
        (ops : List X.Op),
        X.mode? t = none → X.parseFrom w s c (t :: ts) = .ok ops →
        ∃ (o : X.Op) (rest : List X.Op),
          ops = o :: rest ∧ o.width = w ∧ o.swap = s
            ∧ X.parseFrom w s (c + 1) ts = .ok rest) := by
  refine ⟨fun args => rfl, ?_, ?_, fun args => rfl, ?_, ?_⟩
  · intro t w' w c ts h
    exact M.parseM_mode h w c ts
  · intro t w c ts ops hm hok
    by_cases hceq : c = MAXOPS
    · subst hceq
      rw [M.parseM_limit hm] at hok
      cases hok
    · cases ho : tokParse t.data with
      | none =>
        rw [M.parseM_choke hm hceq ho] at hok
        cases hok
      | some o =>
        rw [M.parseM_op hm hceq ho] at hok
        obtain ⟨rest, hrest, hops⟩ := exceptMap_ok hok
        exact ⟨⟨o.operator, w, o.address, o.data⟩, rest, hops, rfl, hrest⟩
  · intro t ws w s c ts h
    exact X.parseX_mode h w s c ts
  · intro t w s c ts ops hm hok
    by_cases hceq : c = MAXOPS
    · subst hceq
      rw [X.parseX_limit hm] at hok
      cases hok
    · cases ho : tokParse t.data with
      | none =>
        rw [X.parseX_choke hm hceq ho] at hok
        cases hok
      | some o =>
        rw [X.parseX_op hm hceq ho] at hok
        obtain ⟨rest, hrest, hops⟩ := exceptMap_ok hok
        exact ⟨⟨o.operator, w, s, o.address, X.parseData w s o.data⟩, rest, hops, rfl, rfl, hrest⟩

/-- Witness for C7 at the spec's own example `b addr1 addr2=5 h addr3`:
the first two operations are 8-bit, the third 16-bit; in the extended
variant a later `H` cannot change the captured 8-bit mode of `7`. -/
theorem C7_witness :
    M.parseFrom 32 0 ("b" :: ["7", "9=5", "h", "11"]) = M.parseFrom 8 0 ["7", "9=5", "h", "11"]
      ∧ (∃ (o : M.Op) (rest : List M.Op),
          [⟨.READ, 8, 7, 0⟩, ⟨.WRITE, 8, 9, 5⟩, ⟨.READ, 16, 11, 0⟩] = o :: rest
            ∧ o.width = 8 ∧ M.parseFrom 8 1 ["9=5", "h", "11"] = .ok rest)
      ∧ X.parseFrom 32 false 0 ("H" :: ["7"]) = X.parseFrom 16 true 0 ["7"]
      ∧ (∃ (o : X.Op) (rest : List X.Op),
          [⟨.READ, 8, false, 7, 0⟩, ⟨.READ, 16, true, 11, 0⟩] = o :: rest
            ∧ o.width = 8 ∧ o.swap = false
            ∧ X.parseFrom 8 false 1 ["H", "11"] = .ok rest) := by
  refine ⟨C7_mode_persistence.2.1 "b" 8 32 0 ["7", "9=5", "h", "11"] (by decide),
    C7_mode_persistence.2.2.1 "7" 8 0 ["9=5", "h", "11"] _ (by decide) rfl,
    C7_mode_persistence.2.2.2.2.1 "H" (16, true) 32 false 0 ["7"] (by decide),
    C7_mode_persistence.2.2.2.2.2 "7" 8 false 0 ["H", "11"] _ (by decide) rfl⟩

/-- The value printed for a read is bounded by the width: at most
`16 ^ (width/4)` (basic variant). -/
theorem M_readVal_lt {o : M.Op} (m : Mem)
    (hw : o.width = 8 ∨ o.width = 16 ∨ o.width = 32 ∨ o.width = 64) :
    M.readVal o m < 16 ^ (o.width / 4) := by
  rcases hw with hw | hw | hw | hw <;>
    simp only [M.readVal, hw] <;> norm_num <;>
    [exact loadBytes_lt m o.address 1; exact loadBytes_lt m o.address 2;
     exact loadBytes_lt m o.address 4; exact loadBytes_lt m o.address 8]

/-- The value printed for a read is bounded by the width (extended
variant; the post-load byte swap preserves the bound). -/
theorem X_readVal_lt {o : X.Op} (m : Mem)
    (hw : o.width = 8 ∨ o.width = 16 ∨ o.width = 32 ∨ o.width = 64) :
    X.readVal o m < 16 ^ (o.width / 4) := by
  rcases hw with hw | hw | hw | hw <;> simp only [X.readVal, hw] <;> norm_num
  · exact loadBytes_lt m o.address 1
  · cases o.swap with
    | false => simpa using loadBytes_lt m o.address 2
    | true => simpa using bswapBytes_lt 2 (loadBytes m o.address 2)
  · cases o.swap with
    | false => simpa using loadBytes_lt m o.address 4
    | true => simpa using bswapBytes_lt 4 (loadBytes m o.address 4)
  · cases o.swap with
    | false => simpa using loadBytes_lt m o.address 8
    | true => simpa using bswapBytes_lt 8 (loadBytes m o.address 8)

/-- Claim C9: every Read of a valid width prints exactly one stdout line,
`0x` followed by the loaded value in uppercase hex zero-padded to exactly
`width/4` digits; non-Read operations print nothing; and the execution
loop emits the lines in operation order (head operation's output first). -/
theorem C9_read_output :
    (∀ (o : M.Op) (m : Mem), o.operator = .READ →
        o.width = 8 ∨ o.width = 16 ∨ o.width = 32 ∨ o.width = 64 →
        (M.step o m).2 = ["0x" ++ hexPad (o.width / 4) (M.readVal o m)]
          ∧ (hexPad (o.width / 4) (M.readVal o m)).length = o.width / 4
          ∧ (∀ ch ∈ (hexPad (o.width / 4) (M.readVal o m)).data, isUpperHexDigit ch))
    ∧ (∀ (o : M.Op) (m : Mem), o.operator ≠ .READ → (M.step o m).2 = [])
    ∧ (∀ (o : M.Op) (os : List M.Op) (m : Mem),
        (M.exec (o :: os) m).2 = (M.step o m).2 ++ (M.exec os (M.step o m).1).2)
    ∧ (∀ (o : X.Op) (m : Mem), o.operator = .READ →
        o.width = 8 ∨ o.width = 16 ∨ o.width = 32 ∨ o.width = 64 →
        (X.step o m).2 = ["0x" ++ hexPad (o.width / 4) (X.readVal o m)]
          ∧ (hexPad (o.width / 4) (X.readVal o m)).length = o.width / 4
          ∧ (∀ ch ∈ (hexPad (o.width / 4) (X.readVal o m)).data, isUpperHexDigit ch))
    ∧ (∀ (o : X.Op) (m : Mem), o.operator ≠ .READ → (X.step o m).2 = [])
    ∧ (∀ (o : X.Op) (os : List X.Op) (m : Mem),
        (X.exec (o :: os) m).2 = (X.step o m).2 ++ (X.exec os (X.step o m).1).2) := by
  refine ⟨?_, ?_, fun o os m => rfl, ?_, ?_, fun o os m => rfl⟩
  · intro o m hop hw
    refine ⟨?_, hexPad_length (M_readVal_lt m hw), hexPad_chars⟩
    rcases hw with hw | hw | hw | hw <;>
      simp [M.step, hop, M.readOut, hw]
  · intro o m hop
    cases h : o.operator <;> simp_all [M.step]
  · intro o m hop hw
    refine ⟨?_, hexPad_length (X_readVal_lt m hw), hexPad_chars⟩
    rcases hw with hw | hw | hw | hw <;>
      simp [X.step, hop, X.readOut, hw]
  · intro o m hop
    cases h : o.operator <;> simp_all [X.step]

/-- Witness for C9: a 32-bit read of memory holding `0xDEADBEEF` prints
the single line `0xDEADBEEF` (8 hex digits); a write prints nothing. -/
theorem C9_witness :
    ((⟨.READ, 32, 4096, 0⟩ : M.Op).operator = .READ
      ∧ ((32 : Nat) = 8 ∨ (32 : Nat) = 16 ∨ (32 : Nat) = 32 ∨ (32 : Nat) = 64))
    ∧ (M.step ⟨.READ, 32, 4096, 0⟩ (storeBytes (fun _ => 0) 4096 4 0xDEADBEEF)).2
        = ["0x" ++ hexPad (32 / 4)
            (M.readVal ⟨.READ, 32, 4096, 0⟩ (storeBytes (fun _ => 0) 4096 4 0xDEADBEEF))]
    ∧ (hexPad (32 / 4)
        (M.readVal ⟨.READ, 32, 4096, 0⟩ (storeBytes (fun _ => 0) 4096 4 0xDEADBEEF))).length
        = 32 / 4
    ∧ (M.step ⟨.WRITE, 32, 4096, 5⟩ (fun _ => 0)).2 = [] := by
  have h := C9_read_output.1 ⟨.READ, 32, 4096, 0⟩
    (storeBytes (fun _ => 0) 4096 4 0xDEADBEEF) rfl (by norm_num)
  exact ⟨⟨rfl, by norm_num⟩, h.1, h.2.1,
    C9_read_output.2.1 ⟨.WRITE, 32, 4096, 5⟩ (fun _ => 0) (by decide)⟩

theorem storeBytes_trunc (m : Mem) (a k v : Nat) :
    storeBytes m a k (v % 2 ^ (8 * k)) = storeBytes m a k v := by
  apply storeBytes_congr_mod
  rw [pow256_eq]
  exact Nat.mod_mod_of_dvd v (dvd_refl _)

theorem storeBytes_land_trunc (m : Mem) (a k x v : Nat) :
    storeBytes m a k (x &&& v % 2 ^ (8 * k)) = storeBytes m a k (x &&& v) := by
  apply storeBytes_congr_mod
  rw [pow256_eq]
  exact land_mod_pow2 x v (8 * k)

theorem storeBytes_lor_trunc (m : Mem) (a k x v : Nat) :
    storeBytes m a k (x ||| v % 2 ^ (8 * k)) = storeBytes m a k (x ||| v) := by
  apply storeBytes_congr_mod
  rw [pow256_eq]
  exact lor_mod_pow2 x v (8 * k)

theorem storeBytes_xor_trunc (m : Mem) (a k x v : Nat) :
    storeBytes m a k (x ^^^ v % 2 ^ (8 * k)) = storeBytes m a k (x ^^^ v) := by
  apply storeBytes_congr_mod
  rw [pow256_eq]
  exact xor_mod_pow2 x v (8 * k)

/-- Claim C5: for every width in {8,16,32,64} and every operation kind,
replacing the stored 64-bit value by its low `width` bits (`value mod
2^width`) leaves the operation's entire effect unchanged — the value
actually applied to memory is the truncation, which equals `value mod
2^width`. In the extended variant's swapped modes the parse-time byte swap
is applied to exactly this `width`-bit truncated value. -/
theorem C5_truncation :
    (∀ (o : M.Op) (m : Mem),
        o.width = 8 ∨ o.width = 16 ∨ o.width = 32 ∨ o.width = 64 →
        M.step ⟨o.operator, o.width, o.address, o.data % 2 ^ o.width⟩ m = M.step o m)
    ∧ (∀ (o : X.Op) (m : Mem),
        o.width = 8 ∨ o.width = 16 ∨ o.width = 32 ∨ o.width = 64 →
        X.step ⟨o.operator, o.width, o.swap, o.address, o.data % 2 ^ o.width⟩ m
          = X.step o m)
    ∧ (∀ w v : Nat, w = 16 ∨ w = 32 ∨ w = 64 →
        X.parseData w true v = bswapBytes (w / 8) (v % 2 ^ w))
    ∧ (∀ (w v : Nat) , X.parseData w false v = v) := by
  refine ⟨?_, ?_, ?_, fun w v => rfl⟩
  · intro o m hw
    obtain ⟨op, w, a, dt⟩ := o
    simp only at hw
    rcases hw with rfl | rfl | rfl | rfl <;> cases op <;>
      simp only [M.step, M.writeMem, M.rmwMem] <;>
      first
        | rfl
        | (rw [show (2:Nat) ^ 8 = 2 ^ (8 * 1) from by norm_num]
           first
             | rw [storeBytes_trunc]
             | rw [storeBytes_land_trunc]
             | rw [storeBytes_lor_trunc]
             | rw [storeBytes_xor_trunc])
        | (rw [show (2:Nat) ^ 16 = 2 ^ (8 * 2) from by norm_num]
           first
             | rw [storeBytes_trunc]
             | rw [storeBytes_land_trunc]
             | rw [storeBytes_lor_trunc]
             | rw [storeBytes_xor_trunc])
        | (rw [show (2:Nat) ^ 32 = 2 ^ (8 * 4) from by norm_num]
           first
             | rw [storeBytes_trunc]
             | rw [storeBytes_land_trunc]
             | rw [storeBytes_lor_trunc]
             | rw [storeBytes_xor_trunc])
        | (rw [show (2:Nat) ^ 64 = 2 ^ (8 * 8) from by norm_num]
           first
             | rw [storeBytes_trunc]
             | rw [storeBytes_land_trunc]
             | rw [storeBytes_lor_trunc]
             | rw [storeBytes_xor_trunc])
  · intro o m hw
    obtain ⟨op, w, s, a, dt⟩ := o
    simp only at hw
    rcases hw with rfl | rfl | rfl | rfl <;> cases op <;>
      simp only [X.step, X.writeMem, X.rmwMem] <;>
      first
        | rfl
        | (rw [show (2:Nat) ^ 8 = 2 ^ (8 * 1) from by norm_num]
           first
             | rw [storeBytes_trunc]
             | rw [storeBytes_land_trunc]
             | rw [storeBytes_lor_trunc]
             | rw [storeBytes_xor_trunc])
        | (rw [show (2:Nat) ^ 16 = 2 ^ (8 * 2) from by norm_num]
           first
             | rw [storeBytes_trunc]
             | rw [storeBytes_land_trunc]
             | rw [storeBytes_lor_trunc]
             | rw [storeBytes_xor_trunc])
        | (rw [show (2:Nat) ^ 32 = 2 ^ (8 * 4) from by norm_num]
           first
             | rw [storeBytes_trunc]
             | rw [storeBytes_land_trunc]
             | rw [storeBytes_lor_trunc]
             | rw [storeBytes_xor_trunc])
        | (rw [show (2:Nat) ^ 64 = 2 ^ (8 * 8) from by norm_num]
           first
             | rw [storeBytes_trunc]
             | rw [storeBytes_land_trunc]
             | rw [storeBytes_lor_trunc]
             | rw [storeBytes_xor_trunc])
  · intro w v hw
    rcases hw with rfl | rfl | rfl <;> simp only [X.parseData, if_true]
    · rw [show (2:Nat) ^ 16 = 256 ^ 2 from by norm_num, bswapBytes_mod]
    · rw [show (2:Nat) ^ 32 = 256 ^ 4 from by norm_num, bswapBytes_mod]
    · rw [show (2:Nat) ^ 64 = 256 ^ 8 from by norm_num, bswapBytes_mod]

/-- Witness for C5 at concrete inputs: an 8-bit write of `0x1FF` has the
same effect as a write of `0x1FF mod 256 = 0xFF`; a swapped 16-bit value
`0x1234` is stored as the byte swap of its 16-bit truncation, `0x3412`. -/
theorem C5_witness :
    ((⟨.WRITE, 8, 0, 0x1FF⟩ : M.Op).width = 8
        ∨ (⟨.WRITE, 8, 0, 0x1FF⟩ : M.Op).width = 16
        ∨ (⟨.WRITE, 8, 0, 0x1FF⟩ : M.Op).width = 32
        ∨ (⟨.WRITE, 8, 0, 0x1FF⟩ : M.Op).width = 64)
      ∧ M.step ⟨.WRITE, 8, 0, 0x1FF % 2 ^ 8⟩ (fun _ => 0)
          = M.step ⟨.WRITE, 8, 0, 0x1FF⟩ (fun _ => 0)
      ∧ X.parseData 16 true 0x1234 = bswapBytes 2 (0x1234 % 2 ^ 16)
      ∧ bswapBytes 2 (0x1234 % 2 ^ 16) = 0x3412 := by
  refine ⟨by norm_num, ?_, C5_truncation.2.2.1 16 0x1234 (by norm_num), by decide⟩
  exact C5_truncation.1 ⟨.WRITE, 8, 0, 0x1FF⟩ (fun _ => 0) (by norm_num)

/-- Claim C6: executing a Write of `v` at `(a, w)` immediately followed by
a Read at `(a, w)` (sequential execution: no external interference) prints
exactly `v` truncated to `w` bits. In the extended variant this holds for
either swap setting of the shared mode: the value is byte-reversed at
parse time before the store (`parseData`) and byte-reversed again after
the load, so the printed value is again `v mod 2^w`. -/
theorem C6_round_trip :
    (∀ (a v w : Nat) (m : Mem), w = 8 ∨ w = 16 ∨ w = 32 ∨ w = 64 →
        (M.exec [⟨.WRITE, w, a, v⟩, ⟨.READ, w, a, 0⟩] m).2
          = ["0x" ++ hexPad (w / 4) (v % 2 ^ w)])
    ∧ (∀ (a v w : Nat) (s : Bool) (m : Mem), w = 8 ∨ w = 16 ∨ w = 32 ∨ w = 64 →
        (X.exec [⟨.WRITE, w, s, a, X.parseData w s v⟩, ⟨.READ, w, s, a, 0⟩] m).2
          = ["0x" ++ hexPad (w / 4) (v % 2 ^ w)]) := by
  constructor
  · intro a v w m hw
    rcases hw with rfl | rfl | rfl | rfl <;>
      simp only [M.exec, M.step, M.writeMem, M.readOut, M.readVal,
        loadBytes_storeBytes, List.append_nil, List.nil_append] <;>
      norm_num
  · intro a v w s m hw
    rcases hw with rfl | rfl | rfl | rfl
    · cases s <;>
        simp only [X.exec, X.step, X.writeMem, X.readOut, X.readVal, X.parseData,
          loadBytes_storeBytes, List.append_nil, List.nil_append] <;>
        norm_num
    · cases s with
      | false =>
        simp only [X.exec, X.step, X.writeMem, X.readOut, X.readVal, X.parseData,
          loadBytes_storeBytes, List.append_nil, List.nil_append, if_false]
        norm_num
      | true =>
        simp only [X.exec, X.step, X.writeMem, X.readOut, X.readVal, X.parseData,
          loadBytes_storeBytes, List.append_nil, List.nil_append, if_true]
        rw [Nat.mod_eq_of_lt (bswapBytes_lt 2 v), bswapBytes_bswapBytes]
        norm_num
    · cases s with
      | false =>
        simp only [X.exec, X.step, X.writeMem, X.readOut, X.readVal, X.parseData,
          loadBytes_storeBytes, List.append_nil, List.nil_append, if_false]
        norm_num
      | true =>
        simp only [X.exec, X.step, X.writeMem, X.readOut, X.readVal, X.parseData,
          loadBytes_storeBytes, List.append_nil, List.nil_append, if_true]
        rw [Nat.mod_eq_of_lt (bswapBytes_lt 4 v), bswapBytes_bswapBytes]
        norm_num
    · cases s with
      | false =>
        simp only [X.exec, X.step, X.writeMem, X.readOut, X.readVal, X.parseData,
          loadBytes_storeBytes, List.append_nil, List.nil_append, if_false]
        norm_num
      | true =>
        simp only [X.exec, X.step, X.writeMem, X.readOut, X.readVal, X.parseData,
          loadBytes_storeBytes, List.append_nil, List.nil_append, if_true]
        rw [Nat.mod_eq_of_lt (bswapBytes_lt 8 v), bswapBytes_bswapBytes]
        norm_num

/-- Witness for C6: scenario 3 of the spec — write byte `0xAB` to `0x2000`
then read it back: the output is exactly `0xAB`; and a swapped 16-bit
round trip of `0x1234` also prints the logical value back. -/
theorem C6_witness :
    ((8 : Nat) = 8 ∨ (8 : Nat) = 16 ∨ (8 : Nat) = 32 ∨ (8 : Nat) = 64)
      ∧ (M.exec [⟨.WRITE, 8, 0x2000, 0xAB⟩, ⟨.READ, 8, 0x2000, 0⟩] (fun _ => 0)).2
          = ["0x" ++ hexPad (8 / 4) (0xAB % 2 ^ 8)]
      ∧ (X.exec [⟨.WRITE, 16, true, 0x2000, X.parseData 16 true 0x1234⟩,
            ⟨.READ, 16, true, 0x2000, 0⟩] (fun _ => 0)).2
          = ["0x" ++ hexPad (16 / 4) (0x1234 % 2 ^ 16)]
      ∧ "0x" ++ hexPad (8 / 4) (0xAB % 2 ^ 8) = "0xAB"
      ∧ "0x" ++ hexPad (16 / 4) (0x1234 % 2 ^ 16) = "0x1234" :=
  ⟨by norm_num,
    C6_round_trip.1 0x2000 0xAB 8 (fun _ => 0) (by norm_num),
    C6_round_trip.2 0x2000 0x1234 16 true (fun _ => 0) (by norm_num),
    by decide, by decide⟩

/-- Claim C10: a numeric token with a leading minus sign is not a parse
error. For a decimal token `-⟨digits⟩` whose digit string (first digit
non-zero, fully consumed with value `n`, `1 ≤ n < 2^64`) the `strtoull`
model accepts the sign and negates in `uint64_t`, yielding `2^64 - n`;
the token parses as a Read operation at that address and is appended to
the operation list by both variants (when the capacity check passes). -/
theorem C10_negative_literal :
    ∀ (c : Char) (rest : List Char) (d n : Nat),
      decVal? c = some d → c ≠ '0' →
      digitsAcc decVal? 10 rest d = (n, []) →
      1 ≤ n → n < 2 ^ 64 →
      strtoullM ('-' :: c :: rest) = some (2 ^ 64 - n, [])
      ∧ tokParse ('-' :: c :: rest) = some ⟨.READ, 2 ^ 64 - n, 0⟩
      ∧ (∀ (w k : Nat) (ts : List String), k ≠ MAXOPS →
          M.parseFrom w k (String.mk ('-' :: c :: rest) :: ts)
            = (M.parseFrom w (k + 1) ts).map
                (fun r => ⟨.READ, w, 2 ^ 64 - n, 0⟩ :: r))
      ∧ (∀ (w : Nat) (s : Bool) (k : Nat) (ts : List String), k ≠ MAXOPS →
          X.parseFrom w s k (String.mk ('-' :: c :: rest) :: ts)
            = (X.parseFrom w s (k + 1) ts).map
                (fun r => ⟨.READ, w, s, 2 ^ 64 - n, 0⟩ :: r)) := by
  intro c rest d n hd hc0 hacc hn1 hn2
  have hstr : strtoullM ('-' :: c :: rest) = some (2 ^ 64 - n, []) := by
    have hskip : skipWs ('-' :: c :: rest) = '-' :: c :: rest := by
      simp [skipWs, isSpaceC]
    have hfin : finishULL true n = 2 ^ 64 - n := by
      unfold finishULL
      rw [if_neg (by omega), if_pos rfl, Nat.mod_eq_of_lt (by omega)]
    unfold strtoullM
    rw [hskip]
    simp only [if_true, ite_true, if_neg hc0, hd, hacc, hfin]
  have htok : tokParse ('-' :: c :: rest) = some ⟨.READ, 2 ^ 64 - n, 0⟩ := by
    unfold tokParse
    rw [hstr]
  have hmodeM : M.mode? (String.mk ('-' :: c :: rest)) = none := rfl
  have hmodeX : X.mode? (String.mk ('-' :: c :: rest)) = none := rfl
  have hdata : (String.mk ('-' :: c :: rest)).data = '-' :: c :: rest := rfl
  refine ⟨hstr, htok, ?_, ?_⟩
  · intro w k ts hk
    rw [M.parseM_op hmodeM hk (hdata ▸ htok) w ts]
  · intro w s k ts hk
    rw [X.parseX_op hmodeX hk (hdata ▸ htok) w s ts]
    simp only [parseData_zero]

/-- Witness for C10 at the token `-1`: it parses to `2^64 - 1 =
18446744073709551615` and is appended as a Read operation. -/
theorem C10_witness :
    decVal? '1' = some 1
      ∧ digitsAcc decVal? 10 [] 1 = (1, [])
      ∧ (strtoullM ('-' :: '1' :: []) = some (2 ^ 64 - 1, [])
          ∧ tokParse ('-' :: '1' :: []) = some ⟨.READ, 2 ^ 64 - 1, 0⟩)
      ∧ M.parse [String.mk ['-', '1']]
          = .ok [⟨.READ, 32, 18446744073709551615, 0⟩] := by
  have h := C10_negative_literal '1' [] 1 1 (by decide) (by decide) (by decide)
    (by norm_num) (by norm_num)
  refine ⟨by decide, by decide, ⟨h.1, h.2.1⟩, ?_⟩
  have h3 := h.2.2.1 32 0 [] (by decide)
  show M.parseFrom 32 0 [String.mk ['-', '1']] = _
  rw [show (String.mk ['-', '1']) = String.mk ('-' :: '1' :: []) from rfl] at h3 ⊢
  rw [h3]
  norm_num [M.parseFrom]
  rfl

end MemTool
